import Mathlib

/-!
Shallow embedding of `src/api/typings.ts` (type-fetcher).

Strings are modelled as `List Char` (`Str`); JavaScript objects used as
string-keyed maps are modelled as association lists in insertion order,
with `jsSet` / `jsMerge` reproducing the semantics of property assignment
and object spread (overwrite-in-place for an existing key, append for a
new key).  Fallible operations (`execSync`, `readFileSync`, `JSON.parse`)
are modelled with `Option` / `Except`; the external outcomes of a run
(install success, manifest bytes, parse results, the materialized tree,
the hash-sum scratch id) are collected in an `Env` record.  The budgeting
loop of `dropFiles` is given explicit fuel: a `none` result means the
loop has not terminated within the given fuel.
-/

abbrev Str := List Char

def chars (s : String) : Str := s.data

/-- `String.prototype.startsWith` on character lists. -/
def strStartsWith : Str → Str → Bool
  | _, [] => true
  | [], _ :: _ => false
  | c :: s, d :: p => c = d && strStartsWith s p

/-- `String.prototype.endsWith` on character lists. -/
def strEndsWith (s pat : Str) : Bool := strStartsWith s.reverse pat.reverse

/-- `s.indexOf(pat) > -1`: `pat` occurs somewhere in `s`. -/
def strContainsSub : Str → Str → Bool
  | [], pat => strStartsWith [] pat
  | c :: rest, pat => strStartsWith (c :: rest) pat || strContainsSub rest pat

/-- `s.indexOf(c) > -1` for a single character. -/
def strContainsChar (s : Str) (c : Char) : Bool := s.any (fun d => d == c)

/-- Auxiliary for `String.prototype.split(sep)`: `acc` is the reversed
current segment. -/
def splitAux (sep : Char) : Str → Str → List Str
  | [], acc => [acc.reverse]
  | c :: rest, acc =>
    if c = sep then acc.reverse :: splitAux sep rest []
    else splitAux sep rest (c :: acc)

/-- `String.prototype.split(sep)` (single-character separator). -/
def splitOnSep (sep : Char) (s : Str) : List Str := splitAux sep s []

/-- `Array.prototype.join(sep)` (single-character separator). -/
def joinWithSep (sep : Char) : List Str → Str
  | [] => []
  | [x] => x
  | x :: xs => x ++ sep :: joinWithSep sep xs

/-- Concatenation of a list of strings. -/
def catLists : List Str → Str
  | [] => []
  | l :: ls => l ++ catLists ls

/-- Node `path.dirname` (posix), for inputs without a trailing slash:
everything before the last `/`; `"."` when there is no slash; `"/"` when
the only slash is the leading one. -/
def dirname (p : Str) : Str :=
  let r := p.reverse.dropWhile (fun c => c ≠ '/')
  match r with
  | [] => chars "."
  | _ :: body => if body = [] then chars "/" else body.reverse

/-- The filename component: everything after the last `/`. -/
def basename (p : Str) : Str := (p.reverse.takeWhile (fun c => c ≠ '/')).reverse

/-- `String.prototype.replace(pat, "")` with a string pattern: removes the
first occurrence of `pat`, if any. -/
def replaceFirst : Str → Str → Str
  | [], _ => []
  | c :: rest, pat =>
    if pat ≠ [] && strStartsWith (c :: rest) pat then (c :: rest).drop pat.length
    else c :: replaceFirst rest pat

/-- Node `path.join(location, entry)` for a plain entry name. -/
def pathJoin (loc name : Str) : Str := loc ++ '/' :: name

/-! ## JavaScript object-as-map semantics -/

/-- `obj[k] = v` (also `{...obj, [k]: v}`): overwrite in place when the key
exists, append otherwise. -/
def jsSet {α : Type} (m : List (Str × α)) (k : Str) (v : α) : List (Str × α) :=
  if m.any (fun e => e.1 = k) then m.map (fun e => if e.1 = k then (k, v) else e)
  else m ++ [(k, v)]

/-- `{...a, ...b}`: fold the entries of `b` into `a`. -/
def jsMerge {α : Type} (a b : List (Str × α)) : List (Str × α) :=
  b.foldl (fun acc e => jsSet acc e.1 e.2) a

/-- `Object.keys`. -/
def keysOf {α : Type} (m : List (Str × α)) : List Str := m.map (·.1)

/-- `m[k]`, with a default for the (unreachable) missing-key case. -/
def lookupD {α : Type} (m : List (Str × α)) (k : Str) (d : α) : α :=
  ((m.find? (fun e => e.1 = k)).map (·.2)).getD d

/-! ## Data model -/

/-- Result of `getDependencyAndVersion`. -/
structure DepVer where
  dependency : Str
  version : Str
deriving DecidableEq

/-- The value stored by `readDirectory` for each accepted file: the object
`{ code }` (note: the declared TypeScript type says `string`, but the
implementation stores this wrapper object). -/
structure FileVal where
  code : Str
deriving DecidableEq

/-- The value stored by `downloadDependencyTypings` in the emitted `files`
mapping: `{ module: <value from the scan> }`. -/
structure ModuleVal where
  module : FileVal
deriving DecidableEq

abbrev FileMap := List (Str × FileVal)

/-- Truthiness of `parsed.typings || parsed.types` for a successfully
parsed JSON document. -/
structure Pkg where
  typesOrTypings : Bool
deriving DecidableEq

/-- `String(v)` for the `{ code }` wrapper object: the default object
coercion used when it is handed to `JSON.parse`. -/
def jsObjToString (_ : FileVal) : Str := chars "[object Object]"

/-- A materialized directory tree.  `econs name node rest` is a directory
listing cell (entry `name` pointing at `node`, followed by the remaining
entries); `enil` is the empty listing; `file` is a regular file. -/
inductive FS where
  | file : Str → FS
  | enil : FS
  | econs : Str → FS → FS → FS
deriving DecidableEq

/-- `stat.isDirectory()` is false exactly on regular files. -/
def FS.isFile : FS → Bool
  | .file _ => true
  | _ => false

/-- Content of a regular file (junk default on directories, where
`readFileSync` would throw instead). -/
def FS.contentD : FS → Str
  | .file c => c
  | _ => []

/-! ## Source constants and functions -/

def TYPE_ONLY_DIRECTORIES : List Str := [chars "src"]

def BLACKLISTED_DIRECTORIES : List Str := [chars "__tests__", chars "aws-sdk"]

/-- `MAX_RES_SIZE = 5.8 * 1024 * 1024 = 6081740.8`; stored ×10 to stay in
exact integer arithmetic. -/
def MAX_RES_SIZE_TENTHS : Nat := 60817408

/-- `len < MAX_RES_SIZE` for an integer length. -/
def ltMaxResSize (len : Nat) : Bool := 10 * len < MAX_RES_SIZE_TENTHS

/-- `len > MAX_RES_SIZE` for an integer length. -/
def gtMaxResSize (len : Nat) : Bool := 10 * len > MAX_RES_SIZE_TENTHS

/-- `getDependencyAndVersion` (src/api/typings.ts:9-24). -/
def getDependencyAndVersion (depString : Str) : DepVer :=
  if (strStartsWith depString (chars "@") && (splitOnSep '@' depString).length == 2)
      || (splitOnSep '@' depString).length == 1 then
    ⟨depString, chars "latest"⟩
  else
    let parts := splitOnSep '@' depString
    ⟨joinWithSep '@' parts.dropLast, parts.getLastD []⟩

/-- The specifier interpolated into the npm install command:
`${dependency}@${version}`. -/
def installSpecifier (dependency version : Str) : Str := dependency ++ '@' :: version

/-- `isFileValid` (src/api/typings.ts:29-44). -/
def isFileValid (path : Str) : Bool :=
  let isTypeOnly := TYPE_ONLY_DIRECTORIES.any (fun dir => strContainsSub path ('/' :: dir ++ ['/']))
  let requiredEnding := if isTypeOnly then chars ".d.ts" else chars ".ts"
  if strEndsWith path requiredEnding then true
  else if strEndsWith path (chars "package.json") then true
  else false

/-- `readDirectory` (src/api/typings.ts:48-67), recursing over the listing
of the directory at `loc` with accumulated result `acc`.  `none` models a
thrown filesystem error (`readdirSync` / `readFileSync` on the wrong kind
of node). -/
def readDirGo (loc : Str) (acc : FileMap) : FS → Option FileMap
  | .file _ => none
  | .enil => some acc
  | .econs name node rest =>
    if node.isFile then
      if isFileValid (pathJoin loc name) then
        readDirGo loc (jsSet acc (pathJoin loc name) ⟨node.contentD⟩) rest
      else readDirGo loc acc rest
    else if BLACKLISTED_DIRECTORIES.contains name then
      -- a blacklisted directory falls through to the validity check;
      -- a "valid" one would be read as a file, which throws EISDIR
      if isFileValid (pathJoin loc name) then none else readDirGo loc acc rest
    else
      match readDirGo (pathJoin loc name) [] node with
      | none => none
      | some sub => readDirGo loc (jsMerge acc sub) rest

def readDirectory (location : Str) (listing : FS) : Option FileMap :=
  readDirGo location [] listing

/-- `cleanFiles` (src/api/typings.ts:72-101).  `parsePkg` models
`JSON.parse` restricted to the truthiness of `.typings || .types`
(`none` = the parse throws); the stored values are the `{ code }` wrapper
objects, so `JSON.parse(files[checkedPath])` receives their string
coercion. -/
def cleanFiles (parsePkg : Str → Option Pkg) (files : FileMap) : FileMap :=
  let paths := keysOf files
  let validDependencies := paths.filter (fun checkedPath =>
    if strEndsWith checkedPath (chars "/package.json") then
      (match parsePkg (jsObjToString (lookupD files checkedPath ⟨[]⟩)) with
        | some parsed => parsed.typesOrTypings
        | none => false)
      || paths.any (fun p =>
           strStartsWith p (dirname checkedPath) && strEndsWith p (chars ".ts"))
    else false)
  files.filter (fun e => strEndsWith e.1 (chars ".ts") || validDependencies.contains e.1)

/-- The error kinds a pipeline run can propagate. -/
inductive Err where
  | install        -- execSync exits non-zero
  | readManifest   -- readFileSync on the installed package.json throws
  | parseManifest  -- JSON.parse on the manifest text throws
  | scan           -- a filesystem error during readDirectory
deriving DecidableEq

/-- External outcomes of one run: install success, the manifest bytes
(`none` = the read throws), the behaviour of `JSON.parse` on strings,
the materialized `node_modules` listing, and the hash-sum scratch id. -/
structure Env where
  installOk : Bool
  manifest : Option Str
  parsePkg : Str → Option Pkg
  tree : FS
  scratchId : Str

/-- `extractFiles` (src/api/typings.ts:103-121). -/
def extractFiles (dependency _version dependencyLocation : Str) (env : Env) :
    Except Err FileMap :=
  if !env.installOk then .error .install
  else
    let dependencyPath := chars "/tmp/" ++ dependencyLocation ++ chars "/node_modules"
    match env.manifest with
    | none => .error .readManifest
    | some content =>
      match env.parsePkg content with
      | none => .error .parseManifest
      | some pkg =>
        if !pkg.typesOrTypings && !strStartsWith dependency (chars "@types/") then .ok []
        else
          match readDirectory dependencyPath env.tree with
          | none => .error .scan
          | some files => .ok (cleanFiles env.parsePkg files)

/-! ## JSON serialization (for the response-size checks) -/

def lbrace : Char := Char.ofNat 123

def rbrace : Char := Char.ofNat 125

/-- One character of `JSON.stringify` string quoting. -/
def jsonEscapeChar (c : Char) : Str :=
  if c = '"' then ['\\', '"']
  else if c = '\\' then ['\\', '\\']
  else if c = '\n' then ['\\', 'n']
  else if c = '\r' then ['\\', 'r']
  else if c = '\t' then ['\\', 't']
  else if c = Char.ofNat 8 then ['\\', 'b']
  else if c = Char.ofNat 12 then ['\\', 'f']
  else if c.toNat < 32 then
    ['\\', 'u', '0', '0',
     (if c.toNat / 16 < 10 then Char.ofNat (48 + c.toNat / 16) else Char.ofNat (87 + c.toNat / 16)),
     (if c.toNat % 16 < 10 then Char.ofNat (48 + c.toNat % 16) else Char.ofNat (87 + c.toNat % 16))]
  else [c]

/-- `JSON.stringify` of a string. -/
def quoteJson (s : Str) : Str := '"' :: catLists (s.map jsonEscapeChar) ++ ['"']

/-- `JSON.stringify` of a `{ code }` value. -/
def stringifyFileVal (v : FileVal) : Str :=
  lbrace :: chars "\"code\":" ++ quoteJson v.code ++ [rbrace]

/-- `JSON.stringify` of a `{ module: { code } }` value. -/
def stringifyModuleVal (v : ModuleVal) : Str :=
  lbrace :: chars "\"module\":" ++ stringifyFileVal v.module ++ [rbrace]

/-- `JSON.stringify` of the emitted files mapping. -/
def stringifyModFiles (m : List (Str × ModuleVal)) : Str :=
  lbrace :: joinWithSep ',' (m.map (fun e => quoteJson e.1 ++ ':' :: stringifyModuleVal e.2))
    ++ [rbrace]

/-- `JSON.stringify({ status: "ok", files })`. -/
def stringifyOkResult (files : List (Str × ModuleVal)) : Str :=
  lbrace :: chars "\"status\":\"ok\",\"files\":" ++ stringifyModFiles files ++ [rbrace]

/-! ## dropFiles and downloadDependencyTypings -/

/-- The loop body of `dropFiles` (src/api/typings.ts:126-135), with fuel.
Note the faithful transcription of the source: `index` is never
incremented by the loop body, and the returned `droppedFileCount` is
`index + 1`.  `none` = the loop has not exited within `fuel` steps. -/
def dropFilesGo (files : List (Str × ModuleVal)) (paths : List Str) :
    Nat → List (Str × ModuleVal) → Nat → Option (List (Str × ModuleVal) × Nat)
  | 0, _, _ => none
  | fuel + 1, result, index =>
    if ltMaxResSize (stringifyModFiles result).length && decide (index < paths.length) then
      dropFilesGo files paths fuel
        (jsSet result (paths.getD index []) (lookupD files (paths.getD index []) ⟨⟨[]⟩⟩)) index
    else
      some (result, index + 1)

/-- `dropFiles` (src/api/typings.ts:124-135), with fuel. -/
def dropFiles (fuel : Nat) (files : List (Str × ModuleVal)) :
    Option (List (Str × ModuleVal) × Nat) :=
  dropFilesGo files (keysOf files) fuel [] 0

/-- The result shape of `downloadDependencyTypings`. -/
structure IResult where
  files : List (Str × ModuleVal)
  droppedFileCount : Option Nat
deriving DecidableEq

/-- The `try` block of `downloadDependencyTypings`
(src/api/typings.ts:144-188).  `none` = the body never exits (the
budgeting loop diverges). -/
def downloadBody (depQuery : Str) (env : Env) (fuel : Nat) :
    Option (Except Err IResult) :=
  let dv := getDependencyAndVersion depQuery
  -- the destructuring default `version = "latest"` applies only to an
  -- undefined property; `getDependencyAndVersion` always returns a string
  let dependencyLocation := env.scratchId
  let dependencyPath := chars "/tmp/" ++ dependencyLocation ++ chars "/node_modules"
  match extractFiles dv.dependency dv.version dependencyLocation env with
  | .error e => some (.error e)
  | .ok files =>
    if (keysOf files).any (fun p => strContainsSub p (chars ".ts")) then
      let filesWithNoPrefix := files.foldl
        (fun t e => jsSet t (replaceFirst e.1 dependencyPath) (ModuleVal.mk e.2)) []
      let resultSize := (stringifyOkResult filesWithNoPrefix).length
      if gtMaxResSize resultSize then
        match dropFiles fuel filesWithNoPrefix with
        | none => none
        | some r => some (.ok ⟨r.1, some r.2⟩)
      else some (.ok ⟨filesWithNoPrefix, none⟩)
    else some (.ok ⟨[], none⟩)

/-- `downloadDependencyTypings` (src/api/typings.ts:141-191): the body
wrapped in `try ... finally rimraf.sync(scratchDir)`.  The second
component is the list of directories recursively removed: the `finally`
clause runs exactly once whenever the body exits, normally or by
throwing. -/
def downloadDependencyTypings (depQuery : Str) (env : Env) (fuel : Nat) :
    Option (Except Err IResult × List Str) :=
  match downloadBody depQuery env fuel with
  | none => none
  | some r => some (r, [chars "/tmp/" ++ env.scratchId])

deriving instance DecidableEq for Except

/-! ## Lemmas about splitting and joining -/

theorem strContainsChar_cons (c : Char) (s : Str) (sep : Char) :
    strContainsChar (c :: s) sep = ((c == sep) || strContainsChar s sep) := rfl

theorem splitAux_no_sep (sep : Char) (t : Str) : ∀ acc, strContainsChar t sep = false →
    splitAux sep t acc = [acc.reverse ++ t] := by
  induction t with
  | nil => intro acc _; simp [splitAux]
  | cons c rest ih =>
    intro acc h
    rw [strContainsChar_cons] at h
    simp only [Bool.or_eq_false_iff, beq_eq_false_iff_ne, ne_eq] at h
    simp only [splitAux, if_neg h.1]
    rw [ih (c :: acc) h.2]
    simp

theorem splitAux_append_sep (sep : Char) (t : Str) : ∀ acc,
    splitAux sep (t ++ [sep]) acc = splitAux sep t acc ++ [[]] := by
  induction t with
  | nil => intro acc; simp [splitAux]
  | cons c rest ih =>
    intro acc
    by_cases hc : c = sep <;> simp [splitAux, hc, ih]

theorem splitAux_sep_cons (sep : Char) (t : Str) : ∀ (x acc : Str),
    strContainsChar t sep = false →
    splitAux sep (t ++ sep :: x) acc = (acc.reverse ++ t) :: splitAux sep x [] := by
  induction t with
  | nil => intro x acc _; simp [splitAux]
  | cons c rest ih =>
    intro x acc h
    rw [strContainsChar_cons] at h
    simp only [Bool.or_eq_false_iff, beq_eq_false_iff_ne, ne_eq] at h
    have step : splitAux sep ((c :: rest) ++ sep :: x) acc
        = splitAux sep (rest ++ sep :: x) (c :: acc) := by
      simp [splitAux, h.1]
    rw [step, ih x (c :: acc) h.2]
    simp

theorem splitAux_ne_nil (sep : Char) (t : Str) : ∀ acc, splitAux sep t acc ≠ [] := by
  induction t with
  | nil => intro acc; simp [splitAux]
  | cons c rest ih =>
    intro acc
    by_cases hc : c = sep <;> simp [splitAux, hc, ih]

theorem joinWithSep_cons_ne (sep : Char) (x : Str) (l : List Str) (h : l ≠ []) :
    joinWithSep sep (x :: l) = x ++ sep :: joinWithSep sep l := by
  cases l with
  | nil => exact absurd rfl h
  | cons y ys => rfl

theorem joinWithSep_splitAux (sep : Char) (t : Str) : ∀ acc,
    joinWithSep sep (splitAux sep t acc) = acc.reverse ++ t := by
  induction t with
  | nil => intro acc; simp [splitAux, joinWithSep]
  | cons c rest ih =>
    intro acc
    by_cases hc : c = sep
    · subst hc
      rw [show splitAux c (c :: rest) acc = acc.reverse :: splitAux c rest [] from by
        simp [splitAux]]
      rw [joinWithSep_cons_ne _ _ _ (splitAux_ne_nil _ _ _), ih []]
      simp
    · simp only [splitAux, if_neg hc]
      rw [ih (c :: acc)]
      simp

theorem splitAux_length_two_le (sep : Char) (t : Str) : ∀ acc,
    strContainsChar t sep = true → 2 ≤ (splitAux sep t acc).length := by
  induction t with
  | nil => intro acc h; simp [strContainsChar] at h
  | cons c rest ih =>
    intro acc h
    rw [strContainsChar_cons] at h
    by_cases hc : c = sep
    · have h1 : splitAux sep rest [] ≠ [] := splitAux_ne_nil sep rest []
      have h2 : 0 < (splitAux sep rest []).length := List.length_pos.mpr h1
      simp only [splitAux, if_pos hc, List.length_cons]
      omega
    · have hcb : (c == sep) = false := by simpa using hc
      rw [hcb] at h
      simp only [Bool.false_or] at h
      simp only [splitAux, if_neg hc]
      exact ih (c :: acc) h

theorem dropLast_append_single {α : Type} (l : List α) (a : α) : (l ++ [a]).dropLast = l := by
  simp

theorem getLastD_append_single {α : Type} (l : List α) (a : α) : ∀ d, (l ++ [a]).getLastD d = a := by
  induction l with
  | nil => intro d; rfl
  | cons y ys ih => intro d; rw [List.cons_append, List.getLastD_cons]; exact ih y

/-! ## Specifier parsing (C6, C10) -/

theorem splitOnSep_no_sep (sep : Char) (t : Str) (h : strContainsChar t sep = false) :
    splitOnSep sep t = [t] := by
  simpa using splitAux_no_sep sep t [] h

/-- C6: a specifier with no `@` at all, and a specifier beginning with `@`
with no further `@`, both parse to version `"latest"` with the whole
string as the dependency; a scoped specifier `"@scope/name@X"` parses to
dependency `"@scope/name"` and version `X`, losing no scope segment. -/
theorem getDependencyAndVersion_spec (a x : Str)
    (ha : strContainsChar a '@' = false) (hx : strContainsChar x '@' = false) :
    getDependencyAndVersion a = ⟨a, chars "latest"⟩ ∧
    getDependencyAndVersion ('@' :: a) = ⟨'@' :: a, chars "latest"⟩ ∧
    getDependencyAndVersion ('@' :: a ++ '@' :: x) = ⟨'@' :: a, x⟩ := by
  refine ⟨?_, ?_, ?_⟩
  · unfold getDependencyAndVersion
    rw [splitOnSep_no_sep '@' a ha]
    simp
  · have h1 : splitOnSep '@' ('@' :: a) = [[], a] := by
      unfold splitOnSep
      rw [show splitAux '@' ('@' :: a) [] = [] :: splitAux '@' a [] from by simp [splitAux]]
      rw [splitAux_no_sep '@' a [] ha]
      simp
    unfold getDependencyAndVersion
    rw [h1]
    simp [strStartsWith, chars]
  · have h1 : splitOnSep '@' ('@' :: a ++ '@' :: x) = [[], a, x] := by
      unfold splitOnSep
      rw [show splitAux '@' ('@' :: a ++ '@' :: x) [] = [] :: splitAux '@' (a ++ '@' :: x) []
        from by simp [splitAux]]
      rw [splitAux_sep_cons '@' a x [] ha, splitAux_no_sep '@' x [] hx]
      rfl
    unfold getDependencyAndVersion
    rw [h1]
    simp [joinWithSep, List.getLastD, List.dropLast]

/-- Witness for C6 at a concrete scoped specifier. -/
theorem getDependencyAndVersion_spec_witness :
    getDependencyAndVersion (chars "scope/name") = ⟨chars "scope/name", chars "latest"⟩ ∧
    getDependencyAndVersion ('@' :: chars "scope/name")
      = ⟨'@' :: chars "scope/name", chars "latest"⟩ ∧
    getDependencyAndVersion ('@' :: chars "scope/name" ++ '@' :: chars "1.2.3")
      = ⟨'@' :: chars "scope/name", chars "1.2.3"⟩ :=
  getDependencyAndVersion_spec (chars "scope/name") (chars "1.2.3") (by decide) (by decide)

/-- C10: a specifier whose last character is a non-leading `@` parses to
the *empty* version string, not `"latest"`; the destructuring default in
`downloadDependencyTypings` applies only to `undefined`, so the empty
version reaches the install command, which becomes `name@`. -/
theorem getDependencyAndVersion_trailing_at (t : Str) (ht : t ≠ []) :
    getDependencyAndVersion (t ++ ['@']) = ⟨t, []⟩ ∧
    installSpecifier t [] = t ++ ['@'] ∧ ([] : Str) ≠ chars "latest" := by
  refine ⟨?_, rfl, by decide⟩
  have hsplit : splitOnSep '@' (t ++ ['@']) = splitOnSep '@' t ++ [[]] :=
    splitAux_append_sep '@' t []
  have hne : splitOnSep '@' t ≠ [] := splitAux_ne_nil '@' t []
  have hpos : 0 < (splitOnSep '@' t).length := List.length_pos.mpr hne
  have hn : (splitOnSep '@' t ++ [[]]).length = (splitOnSep '@' t).length + 1 := by simp
  have hcond : (strStartsWith (t ++ ['@']) (chars "@")
      && ((splitOnSep '@' (t ++ ['@'])).length == 2)
      || ((splitOnSep '@' (t ++ ['@'])).length == 1)) = false := by
    rw [hsplit]
    have e1 : ((splitOnSep '@' t ++ [[]]).length == 1) = false := by
      rw [hn]
      simp only [beq_eq_false_iff_ne, ne_eq]
      omega
    by_cases hct : strContainsChar t '@' = true
    · have h2 : 2 ≤ (splitOnSep '@' t).length := splitAux_length_two_le '@' t [] hct
      have e2 : ((splitOnSep '@' t ++ [[]]).length == 2) = false := by
        rw [hn]
        simp only [beq_eq_false_iff_ne, ne_eq]
        omega
      rw [e1, e2, Bool.and_false, Bool.or_false]
    · cases t with
      | nil => exact absurd rfl ht
      | cons c t' =>
        have hcf : strContainsChar (c :: t') '@' = false := by
          simpa using hct
        rw [strContainsChar_cons] at hcf
        simp only [Bool.or_eq_false_iff, beq_eq_false_iff_ne, ne_eq] at hcf
        have hstart : strStartsWith ((c :: t') ++ ['@']) (chars "@") = false := by
          rw [show chars "@" = ['@'] from rfl]
          rw [show ((c :: t') ++ ['@'] : Str) = c :: (t' ++ ['@']) from rfl]
          simp [strStartsWith, hcf.1]
        rw [e1, hstart, Bool.false_and, Bool.false_or]
  unfold getDependencyAndVersion
  rw [hcond]
  rw [if_neg Bool.false_ne_true]
  have hjoin : joinWithSep '@' (splitOnSep '@' t) = t := by
    simpa using joinWithSep_splitAux '@' t []
  simp only [hsplit, dropLast_append_single, getLastD_append_single, hjoin]

/-- Witness for C10 at the concrete specifier `"react@"`. -/
theorem getDependencyAndVersion_trailing_at_witness :
    getDependencyAndVersion (chars "react" ++ ['@']) = ⟨chars "react", []⟩ ∧
    installSpecifier (chars "react") [] = chars "react" ++ ['@'] ∧
    ([] : Str) ≠ chars "latest" :=
  getDependencyAndVersion_trailing_at (chars "react") (by decide)

/-! ## Scanner acceptance rule (C8) -/

/-- C8 counterexample: `"/a/xpackage.json"` is accepted by `isFileValid`
although it is not under a type-only directory, does not end in `".ts"`,
and its filename is not exactly `"package.json"` — the manifest rule in
the code is a mere `endsWith("package.json")`, not an exact filename
match. -/
theorem isFileValid_exact_manifest_cex :
    isFileValid (chars "/a/xpackage.json") = true ∧
    strContainsSub (chars "/a/xpackage.json") (chars "/src/") = false ∧
    strEndsWith (chars "/a/xpackage.json") (chars ".ts") = false ∧
    basename (chars "/a/xpackage.json") ≠ chars "package.json" := by decide

/-- C8 amended: a path is kept iff it satisfies the suffix rule (paths
containing `"/src/"` must end in `".d.ts"`, all others in `".ts"`) or it
merely *ends with* the string `"package.json"` (the filename need not be
exactly `package.json`). -/
theorem isFileValid_characterization (p : Str) :
    isFileValid p
      = ((if strContainsSub p (chars "/src/") then strEndsWith p (chars ".d.ts")
          else strEndsWith p (chars ".ts")) || strEndsWith p (chars "package.json")) := by
  have hq : TYPE_ONLY_DIRECTORIES.any (fun dir => strContainsSub p ('/' :: dir ++ ['/']))
      = strContainsSub p (chars "/src/") := by
    simp [TYPE_ONLY_DIRECTORIES]
    rfl
  unfold isFileValid
  rw [hq]
  cases h : strContainsSub p (chars "/src/") <;>
    cases h1 : strEndsWith p (chars ".d.ts") <;>
      cases h2 : strEndsWith p (chars ".ts") <;>
        cases h3 : strEndsWith p (chars "package.json") <;>
          simp [h, h1, h2, h3]

/-! ## The budgeting loop (C1, C2) -/

/-- If the loop guard holds at a state whose update step leaves the state
unchanged, the loop never exits: the source never increments `index`, so
re-inserting the same key is such a fixed point. -/
theorem dropFilesGo_stuck (files : List (Str × ModuleVal)) (paths : List Str)
    (result : List (Str × ModuleVal)) (index : Nat)
    (hg : (ltMaxResSize (stringifyModFiles result).length
            && decide (index < paths.length)) = true)
    (hf : jsSet result (paths.getD index [])
            (lookupD files (paths.getD index []) ⟨⟨[]⟩⟩) = result) :
    ∀ fuel, dropFilesGo files paths fuel result index = none := by
  intro fuel
  induction fuel with
  | zero => rfl
  | succ n ih =>
    rw [show dropFilesGo files paths (n + 1) result index
        = (if ltMaxResSize (stringifyModFiles result).length
              && decide (index < paths.length) then
            dropFilesGo files paths n
              (jsSet result (paths.getD index [])
                (lookupD files (paths.getD index []) ⟨⟨[]⟩⟩)) index
          else some (result, index + 1)) from rfl]
    rw [hg, if_pos rfl, hf]
    exact ih

def cexDropOne : List (Str × ModuleVal) := [(chars "a.ts", ⟨⟨chars "x"⟩⟩)]

def cexDropTwo : List (Str × ModuleVal) :=
  [(chars "a.ts", ⟨⟨chars "x"⟩⟩), (chars "b.ts", ⟨⟨chars "y"⟩⟩)]

/-- C1 (code bug): `dropFiles` does not implement the budgeting contract.
On a two-file mapping whose first entry fits under the ceiling it never
returns at all (the loop re-inserts the first key forever, for every
fuel), and on the empty mapping it returns `droppedFileCount = 1` even
though zero files were dropped. -/
theorem dropFiles_budget_contract_fails :
    (∀ fuel, dropFiles fuel cexDropTwo = none) ∧
    dropFiles 1 [] = some ([], 1) := by
  refine ⟨?_, rfl⟩
  intro fuel
  cases fuel with
  | zero => rfl
  | succ n =>
    have hstep : dropFiles (n + 1) cexDropTwo
        = dropFilesGo cexDropTwo (keysOf cexDropTwo) n
            [(chars "a.ts", ⟨⟨chars "x"⟩⟩)] 0 := rfl
    rw [hstep]
    exact dropFilesGo_stuck cexDropTwo (keysOf cexDropTwo)
      [(chars "a.ts", ⟨⟨chars "x"⟩⟩)] 0 (by decide) (by decide) n

/-- C2 (code bug): the budgeting loop is not total.  On a singleton
mapping (whose lone entry serializes far below the ceiling) the loop
never terminates: `index` is never incremented, so the guard stays true
and the state stops changing after the first iteration. -/
theorem dropFiles_singleton_diverges : ∀ fuel, dropFiles fuel cexDropOne = none := by
  intro fuel
  cases fuel with
  | zero => rfl
  | succ n =>
    have hstep : dropFiles (n + 1) cexDropOne
        = dropFilesGo cexDropOne (keysOf cexDropOne) n
            [(chars "a.ts", ⟨⟨chars "x"⟩⟩)] 0 := rfl
    rw [hstep]
    exact dropFilesGo_stuck cexDropOne (keysOf cexDropOne)
      [(chars "a.ts", ⟨⟨chars "x"⟩⟩)] 0 (by decide) (by decide) n

/-! ## Cleanup on every exit path (C3) -/

/-- C3: whenever `downloadDependencyTypings` exits — with a successful
result or by propagating an install, manifest-read, manifest-parse or
scan error — the scratch directory `/tmp/<scratch-id>` is recursively
removed exactly once: the removal trace is exactly the singleton list
holding the scratch directory. -/
theorem downloadDependencyTypings_cleanup_once (depQuery : Str) (env : Env) (fuel : Nat)
    (r : Except Err IResult) (trace : List Str)
    (h : downloadDependencyTypings depQuery env fuel = some (r, trace)) :
    trace = [chars "/tmp/" ++ env.scratchId] := by
  unfold downloadDependencyTypings at h
  cases hb : downloadBody depQuery env fuel with
  | none => rw [hb] at h; exact absurd h (by simp)
  | some r' =>
    rw [hb] at h
    simp only [Option.some.injEq, Prod.mk.injEq] at h
    exact h.2.symm

def envInstallFail : Env :=
  { installOk := false, manifest := none, parsePkg := fun _ => none,
    tree := .enil, scratchId := chars "h" }

/-- Witness for C3: a run whose install step fails still removes exactly
the scratch directory. -/
theorem downloadDependencyTypings_cleanup_once_witness :
    [chars "/tmp/h"] = [chars "/tmp/" ++ envInstallFail.scratchId] :=
  downloadDependencyTypings_cleanup_once (chars "react") envInstallFail 0
    (Except.error Err.install) [chars "/tmp/h"] (by rfl)

/-! ## Malformed manifest handling (C5) -/

def envBadManifest : Env :=
  { installOk := true, manifest := some (chars "not json"), parsePkg := fun _ => none,
    tree := .enil, scratchId := chars "h" }

/-- C5 counterexample: with a malformed installed manifest (every parse
fails) and a dependency outside the types scope, `extractFiles`
propagates a fatal parse error instead of returning the empty result. -/
theorem extractFiles_malformed_manifest_cex :
    extractFiles (chars "leftpad") (chars "latest") (chars "h") envBadManifest
      = Except.error Err.parseManifest ∧
    extractFiles (chars "leftpad") (chars "latest") (chars "h") envBadManifest
      ≠ Except.ok ([] : FileMap) := by decide

/-- C5 amended: when the installed package's manifest is malformed
(`JSON.parse` throws), `extractFiles` propagates the parse error for
every dependency; the empty-result short-circuit applies only after a
successful parse. -/
theorem extractFiles_malformed_manifest_propagates
    (dependency version loc content : Str) (env : Env)
    (hi : env.installOk = true) (hm : env.manifest = some content)
    (hp : env.parsePkg content = none) :
    extractFiles dependency version loc env = Except.error Err.parseManifest := by
  simp [extractFiles, hi, hm, hp]

/-- Witness for the amended C5 at a concrete environment. -/
theorem extractFiles_malformed_manifest_propagates_witness :
    extractFiles (chars "react") (chars "latest") (chars "h") envBadManifest
      = Except.error Err.parseManifest :=
  extractFiles_malformed_manifest_propagates (chars "react") (chars "latest") (chars "h")
    (chars "not json") envBadManifest rfl rfl rfl

/-! ## Manifest cleanup sees wrapper objects (C4) -/

def pkgJsonText : Str := chars "\x7b\"types\":\"index.d.ts\"\x7d"

/-- A `JSON.parse` oracle that succeeds (with a truthy `types`) exactly on
`pkgJsonText` and fails elsewhere — in particular on the string
`"[object Object]"`, which is not valid JSON. -/
def demoParse : Str → Option Pkg := fun s => if s = pkgJsonText then some ⟨true⟩ else none

def typedManifestOnly : FileMap :=
  [(chars "/tmp/h/node_modules/p/package.json", ⟨pkgJsonText⟩)]

/-- C4 (code bug): a scanned manifest whose JSON content declares `types`
is dropped by `cleanFiles` when it has no sibling `.ts` file: the scanner
stores `code`-wrapper objects, so `JSON.parse` receives their coercion
`"[object Object]"` and always throws, making the parsed-manifest branch
unreachable. -/
theorem cleanFiles_drops_typed_manifest :
    demoParse pkgJsonText = some ⟨true⟩ ∧
    demoParse (jsObjToString ⟨pkgJsonText⟩) = none ∧
    cleanFiles demoParse typedManifestOnly = [] := by decide

/-! ## Emitted value shape (C9) -/

def cexTree : FS :=
  .econs (chars "p") (.econs (chars "index.d.ts") (.file (chars "x")) .enil) .enil

def envTyped : Env :=
  { installOk := true, manifest := some pkgJsonText, parsePkg := demoParse,
    tree := cexTree, scratchId := chars "h" }

/-- C9 (code bug): on a successful run the emitted key has the
scratch-root prefix stripped, but the value is the doubly wrapped object
with a `module` field holding the scanner's `code`-wrapper object — not
`module` holding the raw content string. -/
theorem downloadDependencyTypings_wraps_module_value :
    downloadDependencyTypings (chars "p") envTyped 0
      = some (Except.ok ⟨[(chars "/p/index.d.ts", ModuleVal.mk (FileVal.mk (chars "x")))],
                none⟩,
              [chars "/tmp/h"]) := by decide

/-! ## Scanner blacklist invariant (C7) -/

/-- The path built from a chain of segments: `/s1/s2/.../sn`. -/
def segsPath (segs : List Str) : Str := catLists (segs.map (fun s => '/' :: s))

theorem mem_keysOf_jsSet {α : Type} {m : List (Str × α)} {k : Str} {v : α} {x : Str}
    (h : x ∈ keysOf (jsSet m k v)) : x = k ∨ x ∈ keysOf m := by
  unfold jsSet at h
  by_cases hc : m.any (fun e => e.1 = k)
  · rw [if_pos hc] at h
    unfold keysOf at h ⊢
    simp only [List.map_map, List.mem_map, Function.comp] at h
    rcases h with ⟨e, hem, hex⟩
    by_cases he : e.1 = k
    · rw [if_pos he] at hex
      exact Or.inl hex.symm
    · rw [if_neg he] at hex
      exact Or.inr (List.mem_map.mpr ⟨e, hem, hex⟩)
  · rw [if_neg hc] at h
    unfold keysOf at h ⊢
    rw [List.map_append] at h
    rcases List.mem_append.mp h with h1 | h1
    · exact Or.inr h1
    · rcases List.mem_map.mp h1 with ⟨e, he, hex⟩
      rw [List.mem_singleton] at he
      subst he
      exact Or.inl hex.symm

theorem mem_keysOf_jsMerge {α : Type} {b a : List (Str × α)} {x : Str}
    (h : x ∈ keysOf (jsMerge a b)) : x ∈ keysOf a ∨ x ∈ keysOf b := by
  induction b generalizing a with
  | nil => exact Or.inl h
  | cons e bs ih =>
    have h2 : x ∈ keysOf (jsMerge (jsSet a e.1 e.2) bs) := h
    rcases ih h2 with h3 | h3
    · rcases mem_keysOf_jsSet h3 with h4 | h4
      · right
        rw [h4]
        exact List.mem_cons_self _ _
      · exact Or.inl h4
    · right
      simp only [keysOf, List.map_cons, List.mem_cons]
      exact Or.inr h3

theorem dropLast_cons_ne_nil {α : Type} (a : α) {l : List α} (h : l ≠ []) :
    (a :: l).dropLast = a :: l.dropLast := by
  cases l with
  | nil => exact absurd rfl h
  | cons y ys => rfl

/-- Structure of the keys produced by the scanner loop: every key either
was already in the accumulator, or is the scan root followed by a
non-empty chain of entry names in which every directory segment avoids
the blacklist. -/
theorem readDirGo_keys (t : FS) : ∀ (loc : Str) (acc m : FileMap),
    readDirGo loc acc t = some m → ∀ x ∈ keysOf m,
    x ∈ keysOf acc ∨ ∃ segs : List Str, segs ≠ [] ∧ x = loc ++ segsPath segs ∧
      ∀ s ∈ segs.dropLast, BLACKLISTED_DIRECTORIES.contains s = false := by
  induction t with
  | file c =>
    intro loc acc m h
    exact absurd h (by simp [readDirGo])
  | enil =>
    intro loc acc m h x hx
    simp only [readDirGo, Option.some.injEq] at h
    subst h
    exact Or.inl hx
  | econs name node rest ihn ihr =>
    intro loc acc m h x hx
    simp only [readDirGo] at h
    by_cases hisf : node.isFile
    · rw [if_pos hisf] at h
      by_cases hv : isFileValid (pathJoin loc name)
      · rw [if_pos hv] at h
        rcases ihr loc (jsSet acc (pathJoin loc name) ⟨node.contentD⟩) m h x hx with hx1 | hx1
        · rcases mem_keysOf_jsSet hx1 with he | he
          · refine Or.inr ⟨[name], by simp, ?_, by simp⟩
            rw [he]
            simp [pathJoin, segsPath, catLists]
          · exact Or.inl he
        · exact Or.inr hx1
      · rw [if_neg hv] at h
        exact ihr loc acc m h x hx
    · rw [if_neg hisf] at h
      by_cases hb : BLACKLISTED_DIRECTORIES.contains name
      · rw [if_pos hb] at h
        by_cases hv : isFileValid (pathJoin loc name)
        · rw [if_pos hv] at h
          exact absurd h (by simp)
        · rw [if_neg hv] at h
          exact ihr loc acc m h x hx
      · rw [if_neg hb] at h
        cases hsub : readDirGo (pathJoin loc name) [] node with
        | none =>
          rw [hsub] at h
          exact absurd h (by simp)
        | some sub =>
          rw [hsub] at h
          rcases ihr loc (jsMerge acc sub) m h x hx with hx1 | hx1
          · rcases mem_keysOf_jsMerge hx1 with ha | hs
            · exact Or.inl ha
            · rcases ihn (pathJoin loc name) [] sub hsub x hs with h0 | h0
              · exact absurd h0 (by simp [keysOf])
              · rcases h0 with ⟨segs, hne, hxeq, hcl⟩
                refine Or.inr ⟨name :: segs, by simp, ?_, ?_⟩
                · rw [hxeq]
                  simp [pathJoin, segsPath, catLists, List.append_assoc]
                · intro s hs'
                  rw [dropLast_cons_ne_nil name hne] at hs'
                  rcases List.mem_cons.mp hs' with rfl | hs''
                  · simpa using hb
                  · exact hcl s hs''
          · exact Or.inr hx1

/-- C7: no path emitted by the scanner lies beneath a directory whose
name is in the blacklist, at any depth: every emitted key is the scan
root followed by a non-empty segment chain whose directory segments all
avoid the blacklist. -/
theorem readDirectory_no_blacklisted_segments (location : Str) (listing : FS) (m : FileMap)
    (h : readDirectory location listing = some m) (x : Str) (hx : x ∈ keysOf m) :
    ∃ segs : List Str, segs ≠ [] ∧ x = location ++ segsPath segs ∧
      ∀ s ∈ segs.dropLast, BLACKLISTED_DIRECTORIES.contains s = false := by
  rcases readDirGo_keys listing location [] m h x hx with h0 | h0
  · exact absurd h0 (by simp [keysOf])
  · exact h0

/-- Witness for C7: a concrete two-level tree. -/
theorem readDirectory_no_blacklisted_segments_witness :
    ∃ segs : List Str, segs ≠ [] ∧
      chars "/r/p/index.d.ts" = chars "/r" ++ segsPath segs ∧
      ∀ s ∈ segs.dropLast, BLACKLISTED_DIRECTORIES.contains s = false :=
  readDirectory_no_blacklisted_segments (chars "/r") cexTree
    [(chars "/r/p/index.d.ts", ⟨chars "x"⟩)] (by rfl)
    (chars "/r/p/index.d.ts") (by decide)
